import Mathlib

set_option maxRecDepth 8192

/-!
Verification of the JSON output module (`src/formattedcode/output_json.py`).

The module exposes two operations:
  * a sink-writing operation `write_results` that streams a codebase scan
    result (headers, optional top-level attributes, a sequence of file
    records) to an output sink as JSON, in a compact or pretty render mode;
  * a value-producing operation `get_results` that returns the same data as
    an in-memory ordered mapping.

External collaborators (the `jsonstreams` streaming encoder, the codebase
object with its header / attributes / file-record accessors, and the plugin
framework's `get_files`) are modelled from the specification, as noted on
each such definition.  Everything else is translated from the source.
-/

/-! Characters used by the JSON renderers. -/

def lbChar : Char := Char.ofNat 123

def rbChar : Char := Char.ofNat 125

def qmChar : Char := Char.ofNat 34

def bslChar : Char := Char.ofNat 92

def nlChar : Char := Char.ofNat 10

def tabChar : Char := Char.ofNat 9

def crChar : Char := Char.ofNat 13

def backspChar : Char := Char.ofNat 8

def formfChar : Char := Char.ofNat 12

def nibbleList : List Char :=
  ['0', '1', '2', '3'] ++ ['4', '5', '6', '7'] ++ ['8', '9', 'a', 'b'] ++ ['c', 'd', 'e', 'f']

def nibbleChar (n : Nat) : Char := nibbleList.getD n 'f'

def nullChars : List Char := 'n' :: ['u', 'l', 'l']

def trueChars : List Char := 't' :: ['r', 'u', 'e']

def falseChars : List Char := 'f' :: ['a', 'l', 's', 'e']

/-! The JSON document model: values, arrays and (ordered, possibly
duplicated-key) objects, as produced by the Python module.  A mutual
inductive keeps every function structurally recursive and kernel-evaluable. -/

mutual

inductive JsonValue : Type where
  | null : JsonValue
  | bool (b : Bool) : JsonValue
  | num (i : Int) : JsonValue
  | str (s : String) : JsonValue
  | arr (elems : JsonList) : JsonValue
  | obj (entries : JsonObj) : JsonValue

inductive JsonList : Type where
  | nil : JsonList
  | cons (hd : JsonValue) (tl : JsonList) : JsonList

inductive JsonObj : Type where
  | nil : JsonObj
  | cons (key : String) (val : JsonValue) (tl : JsonObj) : JsonObj

end

/-! Basic operations on the object/array model. -/

def JsonList.length : JsonList → Nat
  | .nil => 0
  | .cons _ tl => tl.length + 1

def JsonObj.keys : JsonObj → List String
  | .nil => []
  | .cons k _ tl => k :: tl.keys

def JsonObj.append : JsonObj → JsonObj → JsonObj
  | .nil, o => o
  | .cons k v tl, o => .cons k v (tl.append o)

def JsonObj.lookup : JsonObj → String → Option JsonValue
  | .nil, _ => none
  | .cons k v tl, key => if k = key then some v else tl.lookup key

def JsonObj.setKey : JsonObj → String → JsonValue → JsonObj
  | .nil, key, v => .cons key v .nil
  | .cons k v' tl, key, v =>
      if k = key then .cons k v tl else .cons k v' (tl.setKey key v)

def JsonObj.lastEntry : JsonObj → Option (String × JsonValue)
  | .nil => none
  | .cons k v .nil => some (k, v)
  | .cons _ _ (.cons k' v' tl) => JsonObj.lastEntry (.cons k' v' tl)

def JsonObj.pairs : JsonObj → List (String × JsonValue)
  | .nil => []
  | .cons k v tl => (k, v) :: tl.pairs

/-! Decimal rendering of numbers (structurally recursive via a fuel
argument so that concrete evaluation works in the kernel). -/

def decDigitsGo : Nat → Nat → List Char → List Char
  | 0, _, acc => acc
  | fuel + 1, n, acc =>
      if n < 10 then nibbleChar n :: acc
      else decDigitsGo fuel (n / 10) (nibbleChar (n % 10) :: acc)

def natChars (n : Nat) : List Char := decDigitsGo (n + 1) n []

def intChars : Int → List Char
  | .ofNat n => natChars n
  | .negSucc n => '-' :: natChars (n + 1)

/-! JSON string escaping, following standard JSON escaping rules. -/

def escapeChar (c : Char) : List Char :=
  if c = qmChar then [bslChar, qmChar]
  else if c = bslChar then [bslChar, bslChar]
  else if c = nlChar then [bslChar, 'n']
  else if c = tabChar then [bslChar, 't']
  else if c = crChar then [bslChar, 'r']
  else if c = backspChar then [bslChar, 'b']
  else if c = formfChar then [bslChar, 'f']
  else if c.toNat < 32 then
    bslChar :: 'u' :: '0' :: '0' :: [nibbleChar (c.toNat / 16), nibbleChar (c.toNat % 16)]
  else [c]

def escChars : List Char → List Char
  | [] => []
  | c :: tl => escapeChar c ++ escChars tl

/-! Compact JSON rendering.  Modelled from the spec: the `jsonstreams`
encoder in `{indent: none, compact: true}` configuration inserts no
whitespace between tokens except the minimum required separators. -/

mutual

def encV : JsonValue → List Char
  | .null => nullChars
  | .bool true => trueChars
  | .bool false => falseChars
  | .num i => intChars i
  | .str s => qmChar :: escChars s.data ++ [qmChar]
  | .arr .nil => ['[', ']']
  | .arr (.cons v tl) => '[' :: (encV v ++ encLTail tl ++ [']'])
  | .obj .nil => [lbChar, rbChar]
  | .obj (.cons k v tl) =>
      lbChar :: ((qmChar :: escChars k.data ++ qmChar :: ':' :: encV v)
        ++ encOTail tl ++ [rbChar])
termination_by structural v => v

def encLTail : JsonList → List Char
  | .nil => []
  | .cons v tl => ',' :: (encV v ++ encLTail tl)
termination_by structural l => l

def encOTail : JsonObj → List Char
  | .nil => []
  | .cons k v tl =>
      ',' :: ((qmChar :: escChars k.data ++ qmChar :: ':' :: encV v) ++ encOTail tl)
termination_by structural o => o

end

/-- The rendering of one object entry in compact mode. -/
def encEntry (k : String) (v : JsonValue) : List Char :=
  qmChar :: escChars k.data ++ qmChar :: ':' :: encV v

/-! Pretty JSON rendering.  Modelled from the spec: `{indent: 2 spaces,
pretty: true}`; each nesting level adds two spaces of indentation, each
entry is followed by a line break, and a colon is followed by a space. -/

def indentChars (d : Nat) : List Char := List.replicate (2 * d) ' '

mutual

def ppV : JsonValue → Nat → List Char
  | .null, _ => encV .null
  | .bool b, _ => encV (.bool b)
  | .num i, _ => encV (.num i)
  | .str s, _ => encV (.str s)
  | .arr .nil, _ => ['[', ']']
  | .arr (.cons v tl), d =>
      '[' :: nlChar :: (indentChars (d + 1) ++ ppV v (d + 1) ++ ppLTail tl (d + 1)
        ++ nlChar :: (indentChars d ++ [']']))
  | .obj .nil, _ => [lbChar, rbChar]
  | .obj (.cons k v tl), d =>
      lbChar :: nlChar :: (indentChars (d + 1)
        ++ (qmChar :: escChars k.data ++ qmChar :: ':' :: ' ' :: ppV v (d + 1))
        ++ ppOTail tl (d + 1) ++ nlChar :: (indentChars d ++ [rbChar]))
termination_by structural v _ => v

def ppLTail : JsonList → Nat → List Char
  | .nil, _ => []
  | .cons v tl, d => ',' :: nlChar :: (indentChars d ++ ppV v d ++ ppLTail tl d)
termination_by structural l _ => l

def ppOTail : JsonObj → Nat → List Char
  | .nil, _ => []
  | .cons k v tl, d =>
      ',' :: nlChar :: (indentChars d
        ++ (qmChar :: escChars k.data ++ qmChar :: ':' :: ' ' :: ppV v d)
        ++ ppOTail tl d)
termination_by structural o _ => o

end

/-- The rendering of one object entry in pretty mode. -/
def ppEntry (k : String) (v : JsonValue) (d : Nat) : List Char :=
  qmChar :: escChars k.data ++ qmChar :: ':' :: ' ' :: ppV v d

/-! The token stream of a JSON document: its structure up to whitespace. -/

inductive Tok : Type where
  | lbrace : Tok
  | rbrace : Tok
  | lbrack : Tok
  | rbrack : Tok
  | colon : Tok
  | comma : Tok
  | strT (cs : List Char) : Tok
  | litT (cs : List Char) : Tok
deriving DecidableEq

mutual

def toksV : JsonValue → List Tok
  | .null => [.litT nullChars]
  | .bool true => [.litT trueChars]
  | .bool false => [.litT falseChars]
  | .num i => [.litT (intChars i)]
  | .str s => [.strT (escChars s.data)]
  | .arr .nil => [.lbrack, .rbrack]
  | .arr (.cons v tl) => .lbrack :: (toksV v ++ toksLTail tl ++ [.rbrack])
  | .obj .nil => [.lbrace, .rbrace]
  | .obj (.cons k v tl) =>
      .lbrace :: ((.strT (escChars k.data) :: .colon :: toksV v)
        ++ toksOTail tl ++ [.rbrace])
termination_by structural v => v

def toksLTail : JsonList → List Tok
  | .nil => []
  | .cons v tl => .comma :: (toksV v ++ toksLTail tl)
termination_by structural l => l

def toksOTail : JsonObj → List Tok
  | .nil => []
  | .cons k v tl =>
      .comma :: ((.strT (escChars k.data) :: .colon :: toksV v) ++ toksOTail tl)
termination_by structural o => o

end

/-! A whitespace-insensitive JSON tokenizer, used to state that the compact
and the pretty renderings of the same document agree up to whitespace.  It
is a character-by-character state machine, so it is structurally recursive
and kernel-evaluable. -/

def isWsChar (c : Char) : Bool :=
  c == ' ' || c == nlChar || c == tabChar || c == crChar

def structTok (c : Char) : Option Tok :=
  if c = lbChar then some .lbrace
  else if c = rbChar then some .rbrace
  else if c = '[' then some .lbrack
  else if c = ']' then some .rbrack
  else if c = ':' then some .colon
  else if c = ',' then some .comma
  else none

def isLitChar (c : Char) : Bool :=
  !(isWsChar c) && !(structTok c).isSome && !(c == qmChar)

inductive LexState : Type where
  | top : LexState
  | inStr (acc : List Char) : LexState
  | inStrEsc (acc : List Char) : LexState
  | inLit (acc : List Char) : LexState

def lexSM : List Char → LexState → Option (List Tok)
  | [], .top => some []
  | [], .inLit acc => some [.litT acc.reverse]
  | [], .inStr _ => none
  | [], .inStrEsc _ => none
  | c :: rest, .top =>
      if isWsChar c then lexSM rest .top
      else
        match structTok c with
        | some t => (fun ts => t :: ts) <$> lexSM rest .top
        | none =>
            if c = qmChar then lexSM rest (.inStr [])
            else if isLitChar c then lexSM rest (.inLit [c])
            else none
  | c :: rest, .inStr acc =>
      if c = qmChar then (fun ts => Tok.strT acc.reverse :: ts) <$> lexSM rest .top
      else if c = bslChar then lexSM rest (.inStrEsc (bslChar :: acc))
      else lexSM rest (.inStr (c :: acc))
  | c :: rest, .inStrEsc acc => lexSM rest (.inStr (c :: acc))
  | c :: rest, .inLit acc =>
      if isLitChar c then lexSM rest (.inLit (c :: acc))
      else
        (fun ts => Tok.litT acc.reverse :: ts) <$>
          (if isWsChar c then lexSM rest .top
           else
             match structTok c with
             | some t => (fun ts => t :: ts) <$> lexSM rest .top
             | none =>
                 if c = qmChar then lexSM rest (.inStr [])
                 else none)

def jsonLex (cs : List Char) : Option (List Tok) := lexSM cs .top

/-! The codebase collaborator.  Modelled from the spec: a codebase exposes a
header mapping, an optional ordered attributes mapping, and a lazy,
single-pass, finite sequence of file records.  The sequence is modelled as
the finite list of records it will yield, together with an optional error
that the iterator raises after yielding them (spec section 7, collaborator
failures).  `injectCalls` counts the invocations of the header-mutating
file-count injection, to state frame/effect properties. -/

structure Codebase : Type where
  headers : JsonObj
  attributes : Option JsonObj
  files : JsonList
  filesError : Option String
  injectCalls : Nat

/-- Modelled from the spec: `Codebase.add_files_count_to_current_header`
(code outside `src/`) finalizes the file count into the header mapping
before serialization; it sets the file-count field to the total number of
file records that will be produced, replacing it in place when present and
appending it otherwise.  Each invocation is one header-mutating call. -/
def Codebase.add_files_count_to_current_header (cb : Codebase) : Codebase :=
  { cb with
      headers := cb.headers.setKey "files_count" (.num cb.files.length)
      injectCalls := cb.injectCalls + 1 }

/-- Modelled from the spec: `Codebase.get_headers` (code outside `src/`)
returns the header mapping. -/
def Codebase.get_headers (cb : Codebase) : JsonObj := cb.headers

/-- Modelled from the spec: `OutputPlugin.get_files` (code outside `src/`)
returns the lazy single-pass sequence of file records; consuming it yields
the records in order and then raises the pending collaborator error, if
any. -/
def OutputPlugin.get_files (cb : Codebase) : JsonList × Option String :=
  (cb.files, cb.filesError)

/-- The keys the attributes mapping yields, in order (empty when the
codebase has no attributes object). -/
def Codebase.attrKeys (cb : Codebase) : List String :=
  match cb.attributes with
  | some a => a.keys
  | none => []

/-- The output descriptor of the sink-writing operation: either a path
string to open, or an already-open sink supplied by the caller. -/
inductive OutputDescriptor : Type where
  | path (p : String) : OutputDescriptor
  | openSink : OutputDescriptor

/-- Rendering of a complete document by the streaming encoder.  Modelled
from the spec: closing the outermost scope of the `jsonstreams` stream
produces the full JSON text of the top-level object, in the configured
render mode. -/
def renderDoc (pretty : Bool) (ev : JsonObj) : List Char :=
  if pretty then ppV (.obj ev) 0 else encV (.obj ev)

/-- Rendering of a document whose top-level scope was never closed because
an error was raised partway.  Modelled from the spec: the partially written
output up to the failure point remains on the sink. -/
def renderUnclosed (pretty : Bool) (ev : JsonObj) : List Char :=
  if pretty then
    match ev with
    | .nil => [lbChar]
    | .cons k v tl => lbChar :: nlChar :: (indentChars 1 ++ ppEntry k v 1 ++ ppOTail tl 1)
  else
    match ev with
    | .nil => [lbChar]
    | .cons k v tl => lbChar :: (encEntry k v ++ encOTail tl)

/-- The outcome of one invocation of the sink-writing operation:
the codebase as left by the operation, the success/error outcome, the log
of top-level `write` events fed to the streaming encoder, the characters
written to the sink, and how many times the adapter-opened sink
(respectively the caller-supplied sink) was closed. -/
structure WriteResult : Type where
  codebase : Codebase
  outcome : Except String Unit
  events : JsonObj
  written : List Char
  ownedCloses : Nat
  givenCloses : Nat

/-- Translation of `write_results` (src/formattedcode/output_json.py,
lines 120-158).  A path descriptor is opened here and `close_fd` is set;
the `jsonstreams` stream is modelled from the spec as a top-level object
scope collecting the `s.write(key, value)` events in order and closing the
sink on scope exit exactly when `close_fd` is set, on both the normal and
the error exit path.  Under Python 3 the lazy file sequence is drained into
a concrete list before the single `s.write('files', ...)` call; draining it
raises the collaborator's pending error, if any. -/
def write_results (codebase : Codebase) (output_file : OutputDescriptor)
    (pretty : Bool) : WriteResult :=
  let close_fd : Bool :=
    match output_file with
    | .path _ => true
    | .openSink => false
  let cb1 := codebase.add_files_count_to_current_header
  let codebase_headers := cb1.get_headers
  let evHeaders : JsonObj := .cons "headers" (.obj codebase_headers) .nil
  let evAttrs : JsonObj :=
    match cb1.attributes with
    | some attrs => evHeaders.append attrs
    | none => evHeaders
  let fp := OutputPlugin.get_files cb1
  match fp.2 with
  | some e =>
      { codebase := cb1
        outcome := .error e
        events := evAttrs
        written := renderUnclosed pretty evAttrs
        ownedCloses := if close_fd then 1 else 0
        givenCloses := 0 }
  | none =>
      let ev := evAttrs.append (.cons "files" (.arr fp.1) .nil)
      { codebase := cb1
        outcome := .ok ()
        events := ev
        written := renderDoc pretty ev
        ownedCloses := if close_fd then 1 else 0
        givenCloses := 0 }

/-- A value stored in the ordered mapping returned by `get_results`: a
plain JSON value, the lazy file-record iterator itself, or the file-record
sequence realized as a list. -/
inductive ResultValue : Type where
  | json (v : JsonValue) : ResultValue
  | filesIter (records : JsonList) (err : Option String) : ResultValue
  | filesList (records : JsonList) : ResultValue

/-- The outcome of one invocation of the value-producing operation. -/
structure GetResult : Type where
  codebase : Codebase
  outcome : Except String (List (String × ResultValue))

/-- Ordered-mapping upsert: `d[k] = v` on a Python ordered dict replaces
the value in place when the key is present and appends otherwise. -/
def updEntry : List (String × ResultValue) → String → ResultValue →
    List (String × ResultValue)
  | [], k, v => [(k, v)]
  | (k', v') :: tl, k, v =>
      if k' = k then (k', v) :: tl else (k', v') :: updEntry tl k v

/-- Ordered-mapping update: `d.update(d2)` upserts every entry of `d2` in
order. -/
def updAll (l : List (String × ResultValue)) (l2 : List (String × ResultValue)) :
    List (String × ResultValue) :=
  l2.foldl (fun acc kv => updEntry acc kv.1 kv.2) l

/-- Translation of `get_results` (src/formattedcode/output_json.py,
lines 161-185).  Builds an ordered mapping with the headers, updates it
with the attributes mapping when present, and stores the file sequence
under the key `files` -- as the iterator itself by default, or realized as
a list when `as_list` is set (realizing it raises the collaborator's
pending error, if any). -/
def get_results (codebase : Codebase) (as_list : Bool) : GetResult :=
  let cb1 := codebase.add_files_count_to_current_header
  let results : List (String × ResultValue) :=
    [("headers", ResultValue.json (.obj cb1.get_headers))]
  let results :=
    match cb1.attributes with
    | some attrs => updAll results ((attrs.pairs).map fun kv => (kv.1, ResultValue.json kv.2))
    | none => results
  let fp := OutputPlugin.get_files cb1
  if as_list then
    match fp.2 with
    | some e => { codebase := cb1, outcome := .error e }
    | none =>
        { codebase := cb1
          outcome := .ok (updEntry results "files" (.filesList fp.1)) }
  else
    { codebase := cb1
      outcome := .ok (updEntry results "files" (.filesIter fp.1 fp.2)) }

/-- The entries of a successful `get_results` outcome. -/
def GetResult.entries (r : GetResult) : List (String × ResultValue) :=
  match r.outcome with
  | .ok l => l
  | .error _ => []

/-- Iterating the sink-writing operation on the codebase it leaves behind. -/
def writeIter (out : OutputDescriptor) (pretty : Bool) : Nat → Codebase → Codebase
  | 0, cb => cb
  | n + 1, cb => (write_results (writeIter out pretty n cb) out pretty).codebase

/-- The top-level write events that precede the `files` write: the headers
entry (with the file count injected) followed by the attribute entries. -/
def preFilesEvents (cb : Codebase) : JsonObj :=
  let evH : JsonObj :=
    .cons "headers" (.obj (cb.headers.setKey "files_count" (.num cb.files.length))) .nil
  match cb.attributes with
  | some attrs => evH.append attrs
  | none => evH

/-- The complete top-level write events of a successful write: the
pre-`files` events followed by the single `files` write carrying the fully
realized record list. -/
def fullEvents (cb : Codebase) : JsonObj :=
  (preFilesEvents cb).append (.cons "files" (.arr cb.files) .nil)

/-- The attribute entries as they enter the `get_results` ordered mapping. -/
def attrRVs (a : JsonObj) : List (String × ResultValue) :=
  a.pairs.map fun kv => (kv.1, ResultValue.json kv.2)

/-- The initial `get_results` mapping: the headers entry alone. -/
def grBase (cb : Codebase) : List (String × ResultValue) :=
  [("headers", ResultValue.json (.obj (cb.headers.setKey "files_count" (.num cb.files.length))))]

/-- The attribute entries contributed to the `get_results` mapping. -/
def grAttrs (cb : Codebase) : List (String × ResultValue) :=
  match cb.attributes with
  | some a => attrRVs a
  | none => []

/-- The scenario codebase of the specification: headers
`{"tool_version": "1.0"}`, no attributes, two file records. -/
def scenarioCb : Codebase :=
  { headers := .cons "tool_version" (.str "1.0") .nil
    attributes := none
    files := .cons (.obj (.cons "path" (.str "a.txt") .nil))
              (.cons (.obj (.cons "path" (.str "b.txt") .nil)) .nil)
    filesError := none
    injectCalls := 0 }

/-- A small codebase with one attribute entry and one file record, used to
instantiate universally quantified statements. -/
def sampleCb : Codebase :=
  { headers := .cons "tool_version" (.str "1.0") .nil
    attributes := some (.cons "summary" (.num 7) .nil)
    files := .cons (.obj (.cons "path" (.str "a.txt") .nil)) .nil
    filesError := none
    injectCalls := 0 }

/-- A codebase with no attributes object and no file records. -/
def emptyCb : Codebase :=
  { headers := .nil
    attributes := none
    files := .nil
    filesError := none
    injectCalls := 0 }

/-- A codebase whose attributes mapping itself contains the key `files`. -/
def filesAttrCb : Codebase :=
  { headers := .nil
    attributes := some (.cons "files" (.str "x") .nil)
    files := .nil
    filesError := none
    injectCalls := 0 }

/-! Character-class facts used by the tokenizer lemmas. -/

theorem structTok_not_ws {c : Char} {t : Tok} (h : structTok c = some t) :
    isWsChar c = false := by
  unfold structTok at h
  split_ifs at h with h1 h2 h3 h4 h5 h6 <;> (subst_vars; decide)

theorem isLitChar_spec {c : Char} (h : isLitChar c = true) :
    isWsChar c = false ∧ structTok c = none ∧ ¬(c = qmChar) := by
  unfold isLitChar at h
  simp only [Bool.and_eq_true, Bool.not_eq_true'] at h
  obtain ⟨⟨h1, h2⟩, h3⟩ := h
  refine ⟨h1, ?_, ?_⟩
  · exact Option.not_isSome_iff_eq_none.mp (by simp [h2])
  · intro hc
    simp [hc] at h3

/-- A character list at whose head no literal token can continue. -/
def LitBoundary : List Char → Prop
  | [] => True
  | c :: _ => isLitChar c = false

/-! Stepping lemmas for the tokenizer state machine. -/

theorem lexSM_ws (ws rest : List Char) (h : ∀ c ∈ ws, isWsChar c = true) :
    lexSM (ws ++ rest) .top = lexSM rest .top := by
  induction ws with
  | nil => rfl
  | cons c tl ih =>
      have hc : isWsChar c = true := h c (by simp)
      simp only [List.cons_append, lexSM, hc, if_true]
      exact ih fun x hx => h x (by simp [hx])

theorem lexSM_structChar {c : Char} {t : Tok} (hc : structTok c = some t)
    (rest : List Char) :
    lexSM (c :: rest) .top = (fun ts => t :: ts) <$> lexSM rest .top := by
  have hw : isWsChar c = false := structTok_not_ws hc
  simp [lexSM, hw, hc]

/-- The well-escaped character sequences: the interiors of rendered JSON
string literals, where a quote can occur only after a backslash. -/
inductive WellEscaped : List Char → Prop
  | nil : WellEscaped []
  | plain (c : Char) (tl : List Char) (h1 : ¬(c = qmChar)) (h2 : ¬(c = bslChar))
      (h : WellEscaped tl) : WellEscaped (c :: tl)
  | esc (c : Char) (tl : List Char) (h : WellEscaped tl) :
      WellEscaped (bslChar :: c :: tl)

theorem lexSM_inStr (cs : List Char) (h : WellEscaped cs) :
    ∀ (acc rest : List Char),
      lexSM (cs ++ qmChar :: rest) (.inStr acc) =
        (fun ts => Tok.strT (acc.reverse ++ cs) :: ts) <$> lexSM rest .top := by
  induction h with
  | nil => intro acc rest; simp [lexSM]
  | plain c tl h1 h2 _ ih =>
      intro acc rest
      simp only [List.cons_append, lexSM, if_neg h1, if_neg h2, List.append_eq]
      rw [ih (c :: acc) rest]
      simp
  | esc c tl _ ih =>
      intro acc rest
      have hbq : ¬(bslChar = qmChar) := by decide
      simp only [List.cons_append, lexSM, if_neg hbq, if_pos rfl, if_true,
        List.append_eq]
      rw [ih (c :: bslChar :: acc) rest]
      simp

theorem lexSM_strTok (cs rest : List Char) (h : WellEscaped cs) :
    lexSM (qmChar :: (cs ++ qmChar :: rest)) .top =
      (fun ts => Tok.strT cs :: ts) <$> lexSM rest .top := by
  have hw : isWsChar qmChar = false := by decide
  have hs : structTok qmChar = none := by decide
  simp only [lexSM, hw, hs, if_pos rfl, Bool.false_eq_true, if_false]
  rw [lexSM_inStr cs h [] rest]
  simp

theorem lexSM_litStep (c : Char) (rest acc : List Char) (hc : isLitChar c = false) :
    lexSM (c :: rest) (.inLit acc) =
      (fun ts => Tok.litT acc.reverse :: ts) <$> lexSM (c :: rest) .top := by
  by_cases hw : isWsChar c = true
  · simp [lexSM, hc, hw]
  · have hw' : isWsChar c = false := by simpa using hw
    cases hs : structTok c with
    | some t => simp [lexSM, hc, hw', hs]
    | none =>
        by_cases hq : c = qmChar
        · subst hq
          simp [lexSM, hc, hw', hs]
        · exfalso
          have hlit : isLitChar c = true := by
            unfold isLitChar
            rw [hw', hs]
            simp [hq]
          rw [hlit] at hc
          exact Bool.noConfusion hc

theorem lexSM_litBoundary (rest acc : List Char) (h : LitBoundary rest) :
    lexSM rest (.inLit acc) =
      (fun ts => Tok.litT acc.reverse :: ts) <$> lexSM rest .top := by
  cases rest with
  | nil => simp [lexSM]
  | cons c tl => exact lexSM_litStep c tl acc h

theorem lexSM_litChars (cs : List Char) (h : ∀ c ∈ cs, isLitChar c = true) :
    ∀ (acc rest : List Char),
      lexSM (cs ++ rest) (.inLit acc) = lexSM rest (.inLit (cs.reverse ++ acc)) := by
  induction cs with
  | nil => intro acc rest; simp
  | cons c tl ih =>
      intro acc rest
      have hc : isLitChar c = true := h c (by simp)
      simp only [List.cons_append, lexSM, hc, if_true, List.append_eq]
      rw [ih (fun x hx => h x (by simp [hx])) (c :: acc) rest]
      simp

theorem lexSM_litTok (cs rest : List Char) (hne : cs ≠ [])
    (h : ∀ x ∈ cs, isLitChar x = true) (hb : LitBoundary rest) :
    lexSM (cs ++ rest) .top = (fun ts => Tok.litT cs :: ts) <$> lexSM rest .top := by
  cases cs with
  | nil => exact absurd rfl hne
  | cons c tl =>
      have hc : isLitChar c = true := h c (by simp)
      obtain ⟨hw, hs, hq⟩ := isLitChar_spec hc
      simp only [List.cons_append, lexSM, hw, Bool.false_eq_true, if_false, hs,
        if_neg hq, hc, if_true, List.append_eq]
      rw [lexSM_litChars tl (fun x hx => h x (by simp [hx])) [c] rest,
        lexSM_litBoundary rest _ hb]
      simp

/-! Facts about string escaping and decimal rendering. -/

theorem nibbleChar_mem (n : Nat) : nibbleChar n ∈ nibbleList := by
  unfold nibbleChar
  rcases Nat.lt_or_ge n nibbleList.length with h | h
  · rw [List.getD_eq_getElem nibbleList 'f' h]
    exact nibbleList.getElem_mem h
  · rw [List.getD_eq_default nibbleList 'f' h]
    decide

theorem nibbleChar_props (n : Nat) :
    isLitChar (nibbleChar n) = true ∧ ¬(nibbleChar n = qmChar) ∧
      ¬(nibbleChar n = bslChar) := by
  have h := nibbleChar_mem n
  have hall : ∀ c ∈ nibbleList,
      isLitChar c = true ∧ ¬(c = qmChar) ∧ ¬(c = bslChar) := by decide
  exact hall _ h

theorem wellEscaped_escapeChar (c : Char) (tl : List Char) (h : WellEscaped tl) :
    WellEscaped (escapeChar c ++ tl) := by
  unfold escapeChar
  split_ifs with h1 h2 h3 h4 h5 h6 h7 h8
  · exact .esc qmChar tl h
  · exact .esc bslChar tl h
  · exact .esc 'n' tl h
  · exact .esc 't' tl h
  · exact .esc 'r' tl h
  · exact .esc 'b' tl h
  · exact .esc 'f' tl h
  · refine .esc 'u' _ ?_
    refine .plain '0' _ (by decide) (by decide) ?_
    refine .plain '0' _ (by decide) (by decide) ?_
    refine .plain _ _ (nibbleChar_props _).2.1 (nibbleChar_props _).2.2 ?_
    exact .plain _ _ (nibbleChar_props _).2.1 (nibbleChar_props _).2.2 h
  · exact .plain c tl h1 h2 h

theorem wellEscaped_escChars (cs : List Char) : WellEscaped (escChars cs) := by
  induction cs with
  | nil => exact .nil
  | cons c tl ih => exact wellEscaped_escapeChar c (escChars tl) ih

theorem decDigitsGo_grows (fuel : Nat) :
    ∀ (n : Nat) (acc : List Char), ∃ pre, decDigitsGo fuel n acc = pre ++ acc := by
  induction fuel with
  | zero => intro n acc; exact ⟨[], rfl⟩
  | succ fuel ih =>
      intro n acc
      by_cases h : n < 10
      · exact ⟨[nibbleChar n], by simp [decDigitsGo, h]⟩
      · obtain ⟨pre, hp⟩ := ih (n / 10) (nibbleChar (n % 10) :: acc)
        refine ⟨pre ++ [nibbleChar (n % 10)], ?_⟩
        simp [decDigitsGo, h, hp]

theorem decDigitsGo_lit (fuel : Nat) :
    ∀ (n : Nat) (acc : List Char), (∀ c ∈ acc, isLitChar c = true) →
      ∀ c ∈ decDigitsGo fuel n acc, isLitChar c = true := by
  induction fuel with
  | zero => intro n acc hacc; exact hacc
  | succ fuel ih =>
      intro n acc hacc c hc
      by_cases h : n < 10
      · simp only [decDigitsGo, h, if_true] at hc
        rcases List.mem_cons.mp hc with h' | h'
        · rw [h']; exact (nibbleChar_props n).1
        · exact hacc c h'
      · simp only [decDigitsGo, h, if_false] at hc
        refine ih (n / 10) (nibbleChar (n % 10) :: acc) ?_ c hc
        intro x hx
        rcases List.mem_cons.mp hx with h' | h'
        · rw [h']; exact (nibbleChar_props _).1
        · exact hacc x h'

theorem natChars_lit (n : Nat) : ∀ c ∈ natChars n, isLitChar c = true :=
  decDigitsGo_lit (n + 1) n [] (by intro c hc; exact absurd hc (List.not_mem_nil c))

theorem natChars_ne_nil (n : Nat) : natChars n ≠ [] := by
  unfold natChars decDigitsGo
  by_cases h : n < 10
  · simp [h]
  · simp only [h, if_false]
    obtain ⟨pre, hp⟩ := decDigitsGo_grows n (n / 10) [nibbleChar (n % 10)]
    rw [hp]
    simp

theorem intChars_lit (i : Int) : ∀ c ∈ intChars i, isLitChar c = true := by
  cases i with
  | ofNat n => exact natChars_lit n
  | negSucc n =>
      intro c hc
      rcases List.mem_cons.mp hc with h | h
      · rw [h]; decide
      · exact natChars_lit (n + 1) c h

theorem intChars_ne_nil (i : Int) : intChars i ≠ [] := by
  cases i with
  | ofNat n => exact natChars_ne_nil n
  | negSucc n => simp [intChars]

/-! Tokenizing the compact rendering recovers the token stream of the
document. -/

theorem litBoundary_of (c : Char) (l : List Char) (h : isLitChar c = false) :
    LitBoundary (c :: l) := h
theorem litBoundary_encLTail (tl : JsonList) (rest : List Char) :
    LitBoundary (encLTail tl ++ (']' :: rest)) := by
  cases tl with
  | nil => exact litBoundary_of ']' rest (by decide)
  | cons v tl2 => exact litBoundary_of ',' _ (by decide)

theorem litBoundary_encOTail (o : JsonObj) (rest : List Char) :
    LitBoundary (encOTail o ++ (rbChar :: rest)) := by
  cases o with
  | nil => exact litBoundary_of rbChar rest (by decide)
  | cons k v tl2 => exact litBoundary_of ',' _ (by decide)

mutual

theorem lex_encV : ∀ (v : JsonValue) (rest : List Char), LitBoundary rest →
    lexSM (encV v ++ rest) .top = (fun ts => toksV v ++ ts) <$> lexSM rest .top
  | .null, rest, hb => by
      simpa [encV, toksV] using
        lexSM_litTok nullChars rest (by decide) (by decide) hb
  | .bool true, rest, hb => by
      simpa [encV, toksV] using
        lexSM_litTok trueChars rest (by decide) (by decide) hb
  | .bool false, rest, hb => by
      simpa [encV, toksV] using
        lexSM_litTok falseChars rest (by decide) (by decide) hb
  | .num i, rest, hb => by
      simpa [encV, toksV] using
        lexSM_litTok (intChars i) rest (intChars_ne_nil i) (intChars_lit i) hb
  | .str s, rest, hb => by
      have h := lexSM_strTok (escChars s.data) rest (wellEscaped_escChars s.data)
      simp only [encV, toksV, List.cons_append, List.append_assoc,
        List.singleton_append]
      simpa using h
  | .arr .nil, rest, hb => by
      have h1 := lexSM_structChar (c := '[') (t := .lbrack) (by decide) (']' :: rest)
      have h2 := lexSM_structChar (c := ']') (t := .rbrack) (by decide) rest
      simp only [encV, toksV, List.cons_append, List.nil_append]
      rw [h1, h2]
      cases lexSM rest .top <;> simp
  | .arr (.cons v tl), rest, hb => by
      have h1 := lexSM_structChar (c := '[') (t := .lbrack) (by decide)
        (encV v ++ (encLTail tl ++ (']' :: rest)))
      have h2 := lex_encV v (encLTail tl ++ (']' :: rest)) (litBoundary_encLTail tl rest)
      have h3 := lex_encLTail tl (']' :: rest) (litBoundary_of ']' rest (by decide))
      have h4 := lexSM_structChar (c := ']') (t := .rbrack) (by decide) rest
      simp only [encV, toksV, List.cons_append, List.append_assoc,
        List.singleton_append, List.nil_append]
      rw [h1, h2, h3, h4]
      cases lexSM rest .top <;> simp [List.append_assoc]
  | .obj .nil, rest, hb => by
      have h1 := lexSM_structChar (c := lbChar) (t := .lbrace) (by decide) (rbChar :: rest)
      have h2 := lexSM_structChar (c := rbChar) (t := .rbrace) (by decide) rest
      simp only [encV, toksV, List.cons_append, List.nil_append]
      rw [h1, h2]
      cases lexSM rest .top <;> simp
  | .obj (.cons k v tl), rest, hb => by
      have h1 := lexSM_structChar (c := lbChar) (t := .lbrace) (by decide)
        (qmChar :: (escChars k.data ++ qmChar :: ':' :: (encV v
          ++ (encOTail tl ++ (rbChar :: rest)))))
      have h2 := lexSM_strTok (escChars k.data)
        (':' :: (encV v ++ (encOTail tl ++ (rbChar :: rest))))
        (wellEscaped_escChars k.data)
      have h3 := lexSM_structChar (c := ':') (t := .colon) (by decide)
        (encV v ++ (encOTail tl ++ (rbChar :: rest)))
      have h4 := lex_encV v (encOTail tl ++ (rbChar :: rest)) (litBoundary_encOTail tl rest)
      have h5 := lex_encOTail tl (rbChar :: rest) (litBoundary_of rbChar rest (by decide))
      have h6 := lexSM_structChar (c := rbChar) (t := .rbrace) (by decide) rest
      simp only [encV, toksV, List.cons_append, List.append_assoc,
        List.singleton_append, List.nil_append]
      rw [h1, h2, h3, h4, h5, h6]
      cases lexSM rest .top <;> simp [List.append_assoc]

theorem lex_encLTail : ∀ (l : JsonList) (rest : List Char), LitBoundary rest →
    lexSM (encLTail l ++ rest) .top =
      (fun ts => toksLTail l ++ ts) <$> lexSM rest .top
  | .nil, rest, hb => by
      simp only [encLTail, toksLTail, List.nil_append]
      cases lexSM rest .top <;> simp
  | .cons v tl, rest, hb => by
      have hbt : LitBoundary (encLTail tl ++ rest) := by
        cases tl with
        | nil => simpa [encLTail] using hb
        | cons w tl2 => exact litBoundary_of ',' _ (by decide)
      have h1 := lexSM_structChar (c := ',') (t := .comma) (by decide)
        (encV v ++ (encLTail tl ++ rest))
      have h2 := lex_encV v (encLTail tl ++ rest) hbt
      have h3 := lex_encLTail tl rest hb
      simp only [encLTail, toksLTail, List.cons_append, List.append_assoc]
      rw [h1, h2, h3]
      cases lexSM rest .top <;> simp [List.append_assoc]

theorem lex_encOTail : ∀ (o : JsonObj) (rest : List Char), LitBoundary rest →
    lexSM (encOTail o ++ rest) .top =
      (fun ts => toksOTail o ++ ts) <$> lexSM rest .top
  | .nil, rest, hb => by
      simp only [encOTail, toksOTail, List.nil_append]
      cases lexSM rest .top <;> simp
  | .cons k v tl, rest, hb => by
      have hbt : LitBoundary (encOTail tl ++ rest) := by
        cases tl with
        | nil => simpa [encOTail] using hb
        | cons k2 v2 tl2 => exact litBoundary_of ',' _ (by decide)
      have h1 := lexSM_structChar (c := ',') (t := .comma) (by decide)
        (qmChar :: (escChars k.data ++ qmChar :: ':' :: (encV v ++ (encOTail tl ++ rest))))
      have h2 := lexSM_strTok (escChars k.data)
        (':' :: (encV v ++ (encOTail tl ++ rest))) (wellEscaped_escChars k.data)
      have h3 := lexSM_structChar (c := ':') (t := .colon) (by decide)
        (encV v ++ (encOTail tl ++ rest))
      have h4 := lex_encV v (encOTail tl ++ rest) hbt
      have h5 := lex_encOTail tl rest hb
      simp only [encOTail, toksOTail, List.cons_append, List.append_assoc]
      rw [h1, h2, h3, h4, h5]
      cases lexSM rest .top <;> simp [List.append_assoc]

end

theorem jsonLex_encV (v : JsonValue) : jsonLex (encV v) = some (toksV v) := by
  have h := lex_encV v [] trivial
  simp only [List.append_nil] at h
  rw [jsonLex, h]
  simp [lexSM]

/-! Tokenizing the pretty rendering recovers the same token stream. -/

theorem lexSM_nlInd (d : Nat) (rest : List Char) :
    lexSM (nlChar :: (indentChars d ++ rest)) .top = lexSM rest .top := by
  have h := lexSM_ws (nlChar :: indentChars d) rest ?hws
  · simpa using h
  case hws =>
    intro c hc
    rcases List.mem_cons.mp hc with h2 | h2
    · rw [h2]; decide
    · have hc2 : c = ' ' := List.eq_of_mem_replicate (by simpa [indentChars] using h2)
      rw [hc2]; decide

theorem lexSM_space (rest : List Char) :
    lexSM (' ' :: rest) .top = lexSM rest .top := by
  simpa using lexSM_ws [' '] rest (by intro c hc; simp at hc; rw [hc]; decide)

theorem litBoundary_nl (l : List Char) : LitBoundary (nlChar :: l) :=
  litBoundary_of nlChar l (by decide)

theorem litBoundary_ppLTail (tl : JsonList) (d : Nat) (rest : List Char) :
    LitBoundary (ppLTail tl d ++ (nlChar :: rest)) := by
  cases tl with
  | nil => exact litBoundary_nl rest
  | cons v tl2 => exact litBoundary_of ',' _ (by decide)

theorem litBoundary_ppOTail (o : JsonObj) (d : Nat) (rest : List Char) :
    LitBoundary (ppOTail o d ++ (nlChar :: rest)) := by
  cases o with
  | nil => exact litBoundary_nl rest
  | cons k v tl2 => exact litBoundary_of ',' _ (by decide)

mutual

theorem lex_ppV : ∀ (v : JsonValue) (d : Nat) (rest : List Char), LitBoundary rest →
    lexSM (ppV v d ++ rest) .top = (fun ts => toksV v ++ ts) <$> lexSM rest .top
  | .null, _, rest, hb => by
      simp only [ppV]
      exact lex_encV .null rest hb
  | .bool b, _, rest, hb => by
      simp only [ppV]
      exact lex_encV (.bool b) rest hb
  | .num i, _, rest, hb => by
      simp only [ppV]
      exact lex_encV (.num i) rest hb
  | .str s, _, rest, hb => by
      simp only [ppV]
      exact lex_encV (.str s) rest hb
  | .arr .nil, _, rest, hb => by
      have h := lex_encV (.arr .nil) rest hb
      simp only [encV] at h
      simp only [ppV]
      exact h
  | .arr (.cons v tl), d, rest, hb => by
      have h1 := lexSM_structChar (c := '[') (t := .lbrack) (by decide)
        (nlChar :: (indentChars (d + 1) ++ (ppV v (d + 1) ++ (ppLTail tl (d + 1)
          ++ (nlChar :: (indentChars d ++ (']' :: rest)))))))
      have h2 := lexSM_nlInd (d + 1) (ppV v (d + 1) ++ (ppLTail tl (d + 1)
        ++ (nlChar :: (indentChars d ++ (']' :: rest)))))
      have h3 := lex_ppV v (d + 1) (ppLTail tl (d + 1)
        ++ (nlChar :: (indentChars d ++ (']' :: rest))))
        (litBoundary_ppLTail tl (d + 1) (indentChars d ++ (']' :: rest)))
      have h4 := lex_ppLTail tl (d + 1) (nlChar :: (indentChars d ++ (']' :: rest)))
        (litBoundary_nl _)
      have h5 := lexSM_nlInd d (']' :: rest)
      have h6 := lexSM_structChar (c := ']') (t := .rbrack) (by decide) rest
      simp only [ppV, toksV, List.cons_append, List.append_assoc,
        List.singleton_append, List.nil_append]
      rw [h1, h2, h3, h4, h5, h6]
      cases lexSM rest .top <;> simp [List.append_assoc]
  | .obj .nil, _, rest, hb => by
      have h := lex_encV (.obj .nil) rest hb
      simp only [encV] at h
      simp only [ppV]
      exact h
  | .obj (.cons k v tl), d, rest, hb => by
      have h1 := lexSM_structChar (c := lbChar) (t := .lbrace) (by decide)
        (nlChar :: (indentChars (d + 1) ++ (qmChar :: (escChars k.data
          ++ qmChar :: ':' :: ' ' :: (ppV v (d + 1) ++ (ppOTail tl (d + 1)
          ++ (nlChar :: (indentChars d ++ (rbChar :: rest)))))))))
      have h2 := lexSM_nlInd (d + 1) (qmChar :: (escChars k.data
        ++ qmChar :: ':' :: ' ' :: (ppV v (d + 1) ++ (ppOTail tl (d + 1)
        ++ (nlChar :: (indentChars d ++ (rbChar :: rest)))))))
      have h3 := lexSM_strTok (escChars k.data)
        (':' :: ' ' :: (ppV v (d + 1) ++ (ppOTail tl (d + 1)
          ++ (nlChar :: (indentChars d ++ (rbChar :: rest))))))
        (wellEscaped_escChars k.data)
      have h4 := lexSM_structChar (c := ':') (t := .colon) (by decide)
        (' ' :: (ppV v (d + 1) ++ (ppOTail tl (d + 1)
          ++ (nlChar :: (indentChars d ++ (rbChar :: rest))))))
      have h5 := lexSM_space (ppV v (d + 1) ++ (ppOTail tl (d + 1)
        ++ (nlChar :: (indentChars d ++ (rbChar :: rest)))))
      have h6 := lex_ppV v (d + 1) (ppOTail tl (d + 1)
        ++ (nlChar :: (indentChars d ++ (rbChar :: rest))))
        (litBoundary_ppOTail tl (d + 1) (indentChars d ++ (rbChar :: rest)))
      have h7 := lex_ppOTail tl (d + 1) (nlChar :: (indentChars d ++ (rbChar :: rest)))
        (litBoundary_nl _)
      have h8 := lexSM_nlInd d (rbChar :: rest)
      have h9 := lexSM_structChar (c := rbChar) (t := .rbrace) (by decide) rest
      simp only [ppV, toksV, List.cons_append, List.append_assoc,
        List.singleton_append, List.nil_append]
      rw [h1, h2, h3, h4, h5, h6, h7, h8, h9]
      cases lexSM rest .top <;> simp [List.append_assoc]

theorem lex_ppLTail : ∀ (l : JsonList) (d : Nat) (rest : List Char), LitBoundary rest →
    lexSM (ppLTail l d ++ rest) .top =
      (fun ts => toksLTail l ++ ts) <$> lexSM rest .top
  | .nil, _, rest, hb => by
      simp only [ppLTail, toksLTail, List.nil_append]
      cases lexSM rest .top <;> simp
  | .cons v tl, d, rest, hb => by
      have hbt : LitBoundary (ppLTail tl d ++ rest) := by
        cases tl with
        | nil => simpa [ppLTail] using hb
        | cons w tl2 => exact litBoundary_of ',' _ (by decide)
      have h1 := lexSM_structChar (c := ',') (t := .comma) (by decide)
        (nlChar :: (indentChars d ++ (ppV v d ++ (ppLTail tl d ++ rest))))
      have h2 := lexSM_nlInd d (ppV v d ++ (ppLTail tl d ++ rest))
      have h3 := lex_ppV v d (ppLTail tl d ++ rest) hbt
      have h4 := lex_ppLTail tl d rest hb
      simp only [ppLTail, toksLTail, List.cons_append, List.append_assoc]
      rw [h1, h2, h3, h4]
      cases lexSM rest .top <;> simp [List.append_assoc]

theorem lex_ppOTail : ∀ (o : JsonObj) (d : Nat) (rest : List Char), LitBoundary rest →
    lexSM (ppOTail o d ++ rest) .top =
      (fun ts => toksOTail o ++ ts) <$> lexSM rest .top
  | .nil, _, rest, hb => by
      simp only [ppOTail, toksOTail, List.nil_append]
      cases lexSM rest .top <;> simp
  | .cons k v tl, d, rest, hb => by
      have hbt : LitBoundary (ppOTail tl d ++ rest) := by
        cases tl with
        | nil => simpa [ppOTail] using hb
        | cons k2 v2 tl2 => exact litBoundary_of ',' _ (by decide)
      have h1 := lexSM_structChar (c := ',') (t := .comma) (by decide)
        (nlChar :: (indentChars d ++ (qmChar :: (escChars k.data
          ++ qmChar :: ':' :: ' ' :: (ppV v d ++ (ppOTail tl d ++ rest))))))
      have h2 := lexSM_nlInd d (qmChar :: (escChars k.data
        ++ qmChar :: ':' :: ' ' :: (ppV v d ++ (ppOTail tl d ++ rest))))
      have h3 := lexSM_strTok (escChars k.data)
        (':' :: ' ' :: (ppV v d ++ (ppOTail tl d ++ rest)))
        (wellEscaped_escChars k.data)
      have h4 := lexSM_structChar (c := ':') (t := .colon) (by decide)
        (' ' :: (ppV v d ++ (ppOTail tl d ++ rest)))
      have h5 := lexSM_space (ppV v d ++ (ppOTail tl d ++ rest))
      have h6 := lex_ppV v d (ppOTail tl d ++ rest) hbt
      have h7 := lex_ppOTail tl d rest hb
      simp only [ppOTail, toksOTail, List.cons_append, List.append_assoc]
      rw [h1, h2, h3, h4, h5, h6, h7]
      cases lexSM rest .top <;> simp [List.append_assoc]

end

theorem jsonLex_ppV (v : JsonValue) : jsonLex (ppV v 0) = some (toksV v) := by
  have h := lex_ppV v 0 [] trivial
  simp only [List.append_nil] at h
  rw [jsonLex, h]
  simp [lexSM]

/-! Characterization of the two operations. -/

theorem Codebase.add_fc_headers (cb : Codebase) :
    (cb.add_files_count_to_current_header).headers =
      cb.headers.setKey "files_count" (.num cb.files.length) := rfl

theorem Codebase.add_fc_attributes (cb : Codebase) :
    (cb.add_files_count_to_current_header).attributes = cb.attributes := rfl

theorem Codebase.add_fc_files (cb : Codebase) :
    (cb.add_files_count_to_current_header).files = cb.files := rfl

theorem Codebase.add_fc_filesError (cb : Codebase) :
    (cb.add_files_count_to_current_header).filesError = cb.filesError := rfl

theorem Codebase.add_fc_injectCalls (cb : Codebase) :
    (cb.add_files_count_to_current_header).injectCalls = cb.injectCalls + 1 := rfl

theorem write_results_def (cb : Codebase) (out : OutputDescriptor) (pretty : Bool) :
    write_results cb out pretty =
      match cb.filesError with
      | some e =>
          { codebase := cb.add_files_count_to_current_header
            outcome := .error e
            events := preFilesEvents cb
            written := renderUnclosed pretty (preFilesEvents cb)
            ownedCloses := match out with | .path _ => 1 | .openSink => 0
            givenCloses := 0 }
      | none =>
          { codebase := cb.add_files_count_to_current_header
            outcome := .ok ()
            events := fullEvents cb
            written := renderDoc pretty (fullEvents cb)
            ownedCloses := match out with | .path _ => 1 | .openSink => 0
            givenCloses := 0 } := by
  unfold write_results
  cases hfe : cb.filesError <;> cases out <;>
    simp [OutputPlugin.get_files, Codebase.add_files_count_to_current_header,
      Codebase.get_headers, hfe, preFilesEvents, fullEvents]

theorem get_results_def (cb : Codebase) (as_list : Bool) :
    get_results cb as_list =
      let results :=
        match cb.attributes with
        | some attrs => updAll (grBase cb) (attrRVs attrs)
        | none => grBase cb
      if as_list then
        match cb.filesError with
        | some e => { codebase := cb.add_files_count_to_current_header, outcome := .error e }
        | none =>
            { codebase := cb.add_files_count_to_current_header
              outcome := .ok (updEntry results "files" (.filesList cb.files)) }
      else
        { codebase := cb.add_files_count_to_current_header
          outcome := .ok (updEntry results "files" (.filesIter cb.files cb.filesError)) } := by
  unfold get_results
  cases hfe : cb.filesError <;> cases as_list <;>
    simp [OutputPlugin.get_files, Codebase.add_files_count_to_current_header,
      Codebase.get_headers, hfe, attrRVs, grBase]

theorem JsonObj.keys_append : ∀ (a b : JsonObj), (a.append b).keys = a.keys ++ b.keys
  | .nil, _ => rfl
  | .cons k v tl, b => by
      simp [JsonObj.append, JsonObj.keys, JsonObj.keys_append tl b]

theorem JsonObj.lookup_setKey : ∀ (o : JsonObj) (k : String) (v : JsonValue),
    (o.setKey k v).lookup k = some v
  | .nil, k, v => by simp [JsonObj.setKey, JsonObj.lookup]
  | .cons k2 v2 tl, k, v => by
      by_cases h : k2 = k
      · simp [JsonObj.setKey, JsonObj.lookup, h]
      · simp [JsonObj.setKey, JsonObj.lookup, h, JsonObj.lookup_setKey tl k v]

theorem JsonObj.lastEntry_append_single :
    ∀ (a : JsonObj) (k : String) (v : JsonValue),
      (a.append (.cons k v .nil)).lastEntry = some (k, v)
  | .nil, k, v => rfl
  | .cons k2 v2 .nil, k, v => rfl
  | .cons k2 v2 (.cons k3 v3 tl2), k, v => by
      simpa [JsonObj.append, JsonObj.lastEntry] using
        JsonObj.lastEntry_append_single (.cons k3 v3 tl2) k v

theorem JsonObj.pairs_map_fst : ∀ (a : JsonObj), a.pairs.map Prod.fst = a.keys
  | .nil => rfl
  | .cons k v tl => by
      simp [JsonObj.pairs, JsonObj.keys, JsonObj.pairs_map_fst tl]

theorem preFilesEvents_structure (cb : Codebase) :
    ∃ tl', preFilesEvents cb =
      .cons "headers" (.obj (cb.headers.setKey "files_count" (.num cb.files.length))) tl' := by
  unfold preFilesEvents
  cases cb.attributes with
  | none => exact ⟨.nil, rfl⟩
  | some a => exact ⟨a, rfl⟩

theorem preFilesEvents_keys (cb : Codebase) :
    (preFilesEvents cb).keys = "headers" :: cb.attrKeys := by
  unfold preFilesEvents Codebase.attrKeys
  cases cb.attributes with
  | none => rfl
  | some a => simp [JsonObj.keys_append, JsonObj.keys]

theorem fullEvents_keys (cb : Codebase) :
    (fullEvents cb).keys = "headers" :: cb.attrKeys ++ ["files"] := by
  unfold fullEvents
  rw [JsonObj.keys_append, preFilesEvents_keys]
  rfl

theorem fullEvents_structure (cb : Codebase) :
    ∃ tl', fullEvents cb =
      .cons "headers" (.obj (cb.headers.setKey "files_count" (.num cb.files.length))) tl' := by
  unfold fullEvents
  obtain ⟨tl', h⟩ := preFilesEvents_structure cb
  rw [h]
  exact ⟨tl'.append (.cons "files" (.arr cb.files) .nil), rfl⟩

theorem fullEvents_lastEntry (cb : Codebase) :
    (fullEvents cb).lastEntry = some ("files", .arr cb.files) :=
  JsonObj.lastEntry_append_single (preFilesEvents cb) "files" (.arr cb.files)

theorem updEntry_fresh (l : List (String × ResultValue)) (k : String) (v : ResultValue)
    (h : k ∉ l.map Prod.fst) : updEntry l k v = l ++ [(k, v)] := by
  induction l with
  | nil => rfl
  | cons kv tl ih =>
      simp only [List.map_cons, List.mem_cons] at h
      push_neg at h
      cases kv with
      | mk k2 v2 =>
          simp only [updEntry, if_neg (by simpa using (Ne.symm h.1)), List.cons_append]
          rw [ih h.2]

theorem updAll_fresh (l2 : List (String × ResultValue)) :
    ∀ (l : List (String × ResultValue)),
      (∀ k ∈ l2.map Prod.fst, k ∉ l.map Prod.fst) → (l2.map Prod.fst).Nodup →
      updAll l l2 = l ++ l2 := by
  induction l2 with
  | nil => intro l _ _; simp [updAll]
  | cons kv tl ih =>
      intro l hfresh hnd
      cases kv with
      | mk k v =>
          simp only [List.map_cons] at hnd
          have hnd' := List.nodup_cons.mp hnd
          have hk : k ∉ l.map Prod.fst := hfresh k (by simp)
          have hstep : updEntry l k v = l ++ [(k, v)] := updEntry_fresh l k v hk
          have hnd2 : (tl.map Prod.fst).Nodup := hnd'.2
          have hknotin : k ∉ tl.map Prod.fst := hnd'.1
          have hfresh2 : ∀ k2 ∈ tl.map Prod.fst, k2 ∉ (l ++ [(k, v)]).map Prod.fst := by
            intro k2 hk2
            simp only [List.map_append, List.mem_append, List.map_cons, List.map_nil,
              List.mem_cons, List.not_mem_nil]
            push_neg
            refine ⟨fun hc => hfresh k2 (by simp [hk2]) hc, ?_, fun hc => hc⟩
            intro hc
            exact hknotin (hc ▸ hk2)
          have : updAll l ((k, v) :: tl) = updAll (l ++ [(k, v)]) tl := by
            simp [updAll, hstep]
          rw [this, ih (l ++ [(k, v)]) hfresh2 hnd2]
          simp

theorem writeIter_injectCalls (out : OutputDescriptor) (pretty : Bool) (n : Nat)
    (cb : Codebase) : (writeIter out pretty n cb).injectCalls = cb.injectCalls + n := by
  induction n with
  | zero => rfl
  | succ n ih =>
      show (write_results (writeIter out pretty n cb) out pretty).codebase.injectCalls = _
      rw [write_results_def]
      cases hfe : (writeIter out pretty n cb).filesError <;>
        simp [Codebase.add_files_count_to_current_header, ih, Nat.add_assoc]

theorem grAttrs_keys (cb : Codebase) : (grAttrs cb).map Prod.fst = cb.attrKeys := by
  unfold grAttrs Codebase.attrKeys
  cases cb.attributes with
  | none => rfl
  | some a => simpa [attrRVs] using JsonObj.pairs_map_fst a

theorem get_results_entries (cb : Codebase)
    (hh : ¬ "headers" ∈ cb.attrKeys) (hf : ¬ "files" ∈ cb.attrKeys)
    (hnd : cb.attrKeys.Nodup) :
    ((get_results cb false).entries =
      (grBase cb ++ grAttrs cb) ++ [("files", .filesIter cb.files cb.filesError)]) ∧
    (cb.filesError = none →
      (get_results cb true).entries =
        (grBase cb ++ grAttrs cb) ++ [("files", .filesList cb.files)]) := by
  have hbase : (match cb.attributes with
      | some attrs => updAll (grBase cb) (attrRVs attrs)
      | none => grBase cb) = grBase cb ++ grAttrs cb := by
    cases hat : cb.attributes with
    | none => simp [grAttrs, hat]
    | some a =>
        have hkeys : (attrRVs a).map Prod.fst = cb.attrKeys := by
          have := grAttrs_keys cb
          rw [grAttrs, hat] at this
          exact this
        have hfresh : ∀ k ∈ (attrRVs a).map Prod.fst, ¬ k ∈ (grBase cb).map Prod.fst := by
          intro k hk
          rw [hkeys] at hk
          simp only [grBase, List.map_cons, List.map_nil, List.mem_cons, List.not_mem_nil]
          push_neg
          refine ⟨fun hc => hh (hc ▸ hk), fun hc => hc⟩
        have hnd2 : ((attrRVs a).map Prod.fst).Nodup := by rw [hkeys]; exact hnd
        show updAll (grBase cb) (attrRVs a) = grBase cb ++ grAttrs cb
        rw [updAll_fresh (attrRVs a) (grBase cb) hfresh hnd2]
        simp [grAttrs, hat]
  have hfiles : ¬ "files" ∈ (grBase cb ++ grAttrs cb).map Prod.fst := by
    simp only [List.map_append, List.mem_append, grAttrs_keys]
    push_neg
    constructor
    · simp [grBase]
    · exact hf
  constructor
  · rw [get_results_def]
    simp only [hbase]
    simp [GetResult.entries]
    exact updEntry_fresh _ "files" _ hfiles
  · intro he
    rw [get_results_def]
    simp only [hbase, he]
    simp [GetResult.entries]
    exact updEntry_fresh _ "files" _ hfiles

/-! The claims. -/

/-- Claim C1: for every codebase (whose file sequence yields without
error), the top-level keys of the emitted JSON document appear in exactly
the order `headers` first, then each attribute key in the order the
codebase's attributes mapping yields them, then `files` last, with no
other top-level keys ever emitted. -/
theorem emitted_key_order (cb : Codebase) (out : OutputDescriptor) (pretty : Bool)
    (h : cb.filesError = none) :
    (write_results cb out pretty).events.keys =
      "headers" :: cb.attrKeys ++ ["files"] := by
  rw [write_results_def]
  simp only [h]
  exact fullEvents_keys cb

/-- Concrete instantiation of the key-order theorem. -/
theorem emitted_key_order_witness :
    sampleCb.filesError = none ∧
      (write_results sampleCb .openSink false).events.keys =
        "headers" :: sampleCb.attrKeys ++ ["files"] :=
  ⟨rfl, emitted_key_order sampleCb .openSink false rfl⟩

/-- Claim C2: for the scenario codebase with headers
`{"tool_version": "1.0"}` (which file-count injection turns into
`{"tool_version": "1.0", "files_count": 2}`), no attributes, and the two
file records `{"path": "a.txt"}` and `{"path": "b.txt"}`, the sink-writing
operation in compact mode writes exactly the bytes
`{"headers":{"tool_version":"1.0","files_count":2},"files":[{"path":"a.txt"},{"path":"b.txt"}]}`. -/
theorem scenario_compact_bytes :
    (write_results scenarioCb .openSink false).written =
      [lbChar, qmChar] ++ "headers".data ++ [qmChar, ':', lbChar, qmChar]
        ++ "tool_version".data ++ [qmChar, ':', qmChar] ++ "1.0".data
        ++ [qmChar, ',', qmChar] ++ "files_count".data
        ++ [qmChar, ':', '2', rbChar, ',', qmChar] ++ "files".data
        ++ [qmChar, ':', '[', lbChar, qmChar] ++ "path".data
        ++ [qmChar, ':', qmChar] ++ "a.txt".data
        ++ [qmChar, rbChar, ',', lbChar, qmChar] ++ "path".data
        ++ [qmChar, ':', qmChar] ++ "b.txt".data
        ++ [qmChar, rbChar, ']', rbChar] := by
  decide

/-- Claim C3: each invocation of either operation injects the file count
into the headers exactly once (one header-mutating call), before the
headers are read and serialized; the emitted headers value carries a
`files_count` field equal to the number of file records produced, also
when that number is 0. -/
theorem files_count_injected (cb : Codebase) (out : OutputDescriptor)
    (pretty as_list : Bool) :
    (write_results cb out pretty).codebase.injectCalls = cb.injectCalls + 1 ∧
    (get_results cb as_list).codebase.injectCalls = cb.injectCalls + 1 ∧
    JsonObj.lookup (write_results cb out pretty).events "headers" =
      some (.obj (cb.headers.setKey "files_count" (.num cb.files.length))) ∧
    JsonObj.lookup (cb.headers.setKey "files_count" (.num cb.files.length))
      "files_count" = some (.num cb.files.length) := by
  refine ⟨?_, ?_, ?_, JsonObj.lookup_setKey cb.headers _ _⟩
  · rw [write_results_def]
    cases hfe : cb.filesError <;> simp [Codebase.add_fc_injectCalls]
  · rw [get_results_def]
    cases hfe : cb.filesError <;> cases as_list <;> simp [Codebase.add_fc_injectCalls]
  · rw [write_results_def]
    cases hfe : cb.filesError with
    | some e =>
        simp only
        obtain ⟨tl2, hs⟩ := preFilesEvents_structure cb
        rw [hs]
        simp [JsonObj.lookup]
    | none =>
        simp only
        obtain ⟨tl2, hs⟩ := fullEvents_structure cb
        rw [hs]
        simp [JsonObj.lookup]

/-- Claim C4: a sink opened here from a path descriptor is closed exactly
once whether serialization completes or raises partway; a caller-supplied
sink is never closed by the operation. -/
theorem sink_close_discipline (cb : Codebase) (p : String) (pretty : Bool) :
    (write_results cb (.path p) pretty).ownedCloses = 1 ∧
    (write_results cb (.path p) pretty).givenCloses = 0 ∧
    (write_results cb .openSink pretty).ownedCloses = 0 ∧
    (write_results cb .openSink pretty).givenCloses = 0 := by
  cases hfe : cb.filesError <;>
    simp [write_results_def, hfe]

/-- Claim C5: two invocations of the sink-writing operation on the same
codebase with two fresh sinks and the same render mode write byte-identical
output. -/
theorem write_results_deterministic (cb : Codebase) (out1 out2 : OutputDescriptor)
    (pretty : Bool) :
    (write_results cb out1 pretty).written = (write_results cb out2 pretty).written := by
  rw [write_results_def, write_results_def]
  cases hfe : cb.filesError <;> simp

/-- Claim C6: the compact output and the pretty output of the same codebase
tokenize (ignoring whitespace) to the same JSON token stream, namely the
token stream of the emitted document, so both parse to structurally
identical documents differing only in whitespace. -/
theorem compact_pretty_same_document (cb : Codebase) (out1 out2 : OutputDescriptor)
    (h : cb.filesError = none) :
    jsonLex (write_results cb out1 false).written =
        some (toksV (.obj (fullEvents cb))) ∧
    jsonLex (write_results cb out2 true).written =
        some (toksV (.obj (fullEvents cb))) ∧
    jsonLex (write_results cb out1 false).written =
        jsonLex (write_results cb out2 true).written := by
  have hc : (write_results cb out1 false).written = encV (.obj (fullEvents cb)) := by
    rw [write_results_def]
    simp [h, renderDoc]
  have hp : (write_results cb out2 true).written = ppV (.obj (fullEvents cb)) 0 := by
    rw [write_results_def]
    simp [h, renderDoc]
  refine ⟨?_, ?_, ?_⟩
  · rw [hc]; exact jsonLex_encV _
  · rw [hp]; exact jsonLex_ppV _
  · rw [hc, hp, jsonLex_encV, jsonLex_ppV]

/-- Concrete instantiation of the compact/pretty agreement theorem. -/
theorem compact_pretty_same_document_witness :
    sampleCb.filesError = none ∧
      jsonLex (write_results sampleCb .openSink false).written =
        jsonLex (write_results sampleCb .openSink true).written :=
  ⟨rfl, (compact_pretty_same_document sampleCb .openSink .openSink rfl).2.2⟩

/-- Claim C7: the `files` value of the emitted document is always a JSON
array carrying the full record list (an empty sequence included), and with
no attributes object the document has no top-level keys besides `headers`
and `files`. -/
theorem files_entry_always_array (cb : Codebase) (out : OutputDescriptor)
    (pretty : Bool) (h : cb.filesError = none) :
    (write_results cb out pretty).events.lastEntry =
      some ("files", .arr cb.files) ∧
    (cb.attributes = none →
      (write_results cb out pretty).events.keys = ["headers", "files"]) := by
  constructor
  · rw [write_results_def]
    simp only [h]
    exact fullEvents_lastEntry cb
  · intro hat
    rw [write_results_def]
    simp only [h]
    rw [fullEvents_keys]
    simp [Codebase.attrKeys, hat]

/-- Concrete instantiation of the files-array theorem on an empty file
sequence and absent attributes. -/
theorem files_entry_always_array_witness :
    emptyCb.filesError = none ∧
      (write_results emptyCb .openSink false).events.lastEntry =
        some ("files", .arr .nil) ∧
      (write_results emptyCb .openSink false).events.keys = ["headers", "files"] := by
  have h := files_entry_always_array emptyCb .openSink false rfl
  exact ⟨rfl, h.1, h.2 rfl⟩

/-- Claim C8 (amended): when no attribute key equals `headers` or `files`
and the attribute keys are distinct, the value-producing operation returns
an ordered mapping whose keys in order are `headers`, each attribute key,
then `files`; the `files` value is the lazy iterator when `as_list` is
false and the realized list when `as_list` is true.  (When an attribute key
collides with `headers` or `files`, the ordered-dict update replaces the
value in place instead of appending, so the unconditional claim fails; see
the counterexample.) -/
theorem get_results_shape (cb : Codebase)
    (hh : ¬ "headers" ∈ cb.attrKeys) (hf : ¬ "files" ∈ cb.attrKeys)
    (hnd : cb.attrKeys.Nodup) (he : cb.filesError = none) :
    (get_results cb false).entries.map Prod.fst =
      "headers" :: cb.attrKeys ++ ["files"] ∧
    (get_results cb false).entries.getLast? =
      some ("files", .filesIter cb.files cb.filesError) ∧
    (get_results cb true).entries.map Prod.fst =
      "headers" :: cb.attrKeys ++ ["files"] ∧
    (get_results cb true).entries.getLast? =
      some ("files", .filesList cb.files) := by
  obtain ⟨hFalse, hTrue⟩ := get_results_entries cb hh hf hnd
  have hkeys : ((grBase cb ++ grAttrs cb).map Prod.fst) = "headers" :: cb.attrKeys := by
    simp [List.map_append, grAttrs_keys, grBase]
  refine ⟨?_, ?_, ?_, ?_⟩
  · rw [hFalse]
    simp only [List.map_append, List.map_cons, List.map_nil] at hkeys ⊢
    simp [hkeys, grAttrs_keys, grBase]
  · rw [hFalse]
    exact List.getLast?_concat _
  · rw [hTrue he]
    simp only [List.map_append, List.map_cons, List.map_nil] at hkeys ⊢
    simp [hkeys, grAttrs_keys, grBase]
  · rw [hTrue he]
    exact List.getLast?_concat _

/-- Concrete instantiation of the amended `get_results` shape theorem. -/
theorem get_results_shape_witness :
    (¬ "headers" ∈ sampleCb.attrKeys) ∧ (¬ "files" ∈ sampleCb.attrKeys) ∧
      sampleCb.attrKeys.Nodup ∧ sampleCb.filesError = none ∧
      (get_results sampleCb false).entries.map Prod.fst =
        "headers" :: sampleCb.attrKeys ++ ["files"] :=
  ⟨by decide, by decide, by decide, rfl,
    (get_results_shape sampleCb (by decide) (by decide) (by decide) rfl).1⟩

/-- Claim C8, as stated, fails on a codebase whose attributes mapping
contains the key `files`: the ordered-dict assignment replaces that entry
in place, so the keys are not `headers`, the attribute keys, then `files`. -/
theorem get_results_order_cex :
    ¬ ((get_results filesAttrCb false).entries.map Prod.fst =
        "headers" :: filesAttrCb.attrKeys ++ ["files"]) := by
  decide

/-- Claim C9: each invocation of either operation performs the header
file-count injection exactly once, n invocations perform it n times, and
apart from replacing the `files_count` header field neither operation
mutates the codebase. -/
theorem injection_once_and_frame (cb : Codebase) (out : OutputDescriptor)
    (pretty as_list : Bool) (n : Nat) :
    (write_results cb out pretty).codebase = cb.add_files_count_to_current_header ∧
    (get_results cb as_list).codebase = cb.add_files_count_to_current_header ∧
    (write_results cb out pretty).codebase.injectCalls = cb.injectCalls + 1 ∧
    (get_results cb as_list).codebase.injectCalls = cb.injectCalls + 1 ∧
    (write_results cb out pretty).codebase.attributes = cb.attributes ∧
    (write_results cb out pretty).codebase.files = cb.files ∧
    (write_results cb out pretty).codebase.filesError = cb.filesError ∧
    (write_results cb out pretty).codebase.headers =
      cb.headers.setKey "files_count" (.num cb.files.length) ∧
    (writeIter out pretty n cb).injectCalls = cb.injectCalls + n := by
  have hw : (write_results cb out pretty).codebase = cb.add_files_count_to_current_header := by
    rw [write_results_def]
    cases hfe : cb.filesError <;> simp
  have hg : (get_results cb as_list).codebase = cb.add_files_count_to_current_header := by
    rw [get_results_def]
    cases hfe : cb.filesError <;> cases as_list <;> simp
  refine ⟨hw, hg, ?hi1, ?hi2, ?hf1, ?hf2, ?hf3, ?hf4,
      writeIter_injectCalls out pretty n cb⟩ <;>
    simp [hw, hg, Codebase.add_fc_injectCalls, Codebase.add_fc_attributes,
      Codebase.add_fc_files, Codebase.add_fc_filesError, Codebase.add_fc_headers]

/-- Claim C10: the sink-writing operation drains the lazy file sequence
into a concrete list and writes the `files` entry as one atomic value: its
event log is the pre-`files` events followed by a single `files` write
carrying the fully realized array, and the written bytes render that whole
document, never feeding the array element-by-element from the lazy
source. -/
theorem files_written_atomically (cb : Codebase) (out : OutputDescriptor)
    (pretty : Bool) (h : cb.filesError = none) :
    (write_results cb out pretty).events =
      (preFilesEvents cb).append (.cons "files" (.arr cb.files) .nil) ∧
    (write_results cb out pretty).written =
      renderDoc pretty ((preFilesEvents cb).append (.cons "files" (.arr cb.files) .nil)) := by
  rw [write_results_def]
  simp only [h]
  exact ⟨rfl, rfl⟩

/-- Concrete instantiation of the atomic-files-write theorem. -/
theorem files_written_atomically_witness :
    scenarioCb.filesError = none ∧
      (write_results scenarioCb .openSink false).events =
        (preFilesEvents scenarioCb).append
          (.cons "files" (.arr scenarioCb.files) .nil) :=
  ⟨rfl, (files_written_atomically scenarioCb .openSink false rfl).1⟩
